import Mathlib

/-!
Verification of the EmuFS / FdTable core of the `rd` record-and-replay
debugger (a Rust port of `rr`), against its natural-language specification.

The Rust source is shallowly embedded:
* `src/fd_table.rs` — `FdTable` becomes a record holding an association list
  of monitored fds and the `fd_count_beyond_limit` counter; each mutation is
  a Lean function mirroring the Rust method line by line.  The
  `SYSCALLBUF_FDS_DISABLED_SIZE` constant lives in the preload interface
  (outside this repository's sources), so it is a parameter `SIZE` here.
* `src/emu_fs.rs` — `EmuFs` becomes a registry state machine; strong `Rc`
  handles are modelled by a `live` set of handle ids and the weak-map by an
  association list from `(device, inode)` to handle id.  Byte contents of an
  `EmuFile`'s backing object are a `List Nat`; `pread64` / `pwrite64`
  return-value behaviour is supplied by oracle lists of `Int` results.
* `src/util.rs` — `is_tmp_file` and `pwrite_all_fallible` are embedded with
  the environment (env vars, `statfs`, kernel write results) as parameters.
-/

namespace Rd

/-! ### Association-list primitives

`HashMap` in the source is modelled as an association list whose `lookup`
returns the first binding.  `ainsert` replaces any existing binding (as
`HashMap::insert` does) and `aerase` removes it (as `HashMap::remove`). -/

def alookup {α β : Type} [DecidableEq α] : List (α × β) → α → Option β
  | [], _ => none
  | (k, v) :: rest, a => if k = a then some v else alookup rest a

def aerase {α β : Type} [DecidableEq α] (l : List (α × β)) (a : α) : List (α × β) :=
  l.filter (fun p => decide (p.1 ≠ a))

def ainsert {α β : Type} [DecidableEq α] (l : List (α × β)) (a : α) (b : β) : List (α × β) :=
  (a, b) :: aerase l a

theorem alookup_aerase_self {α β : Type} [DecidableEq α] (l : List (α × β)) (a : α) :
    alookup (aerase l a) a = none := by
  induction l with
  | nil => rfl
  | cons p rest ih =>
    simp only [aerase, List.filter_cons] at ih ⊢
    by_cases h : p.1 = a
    · simpa [h] using ih
    · simpa [h, alookup] using ih

theorem alookup_aerase_ne {α β : Type} [DecidableEq α] (l : List (α × β)) (a x : α)
    (hx : x ≠ a) : alookup (aerase l a) x = alookup l x := by
  induction l with
  | nil => rfl
  | cons p rest ih =>
    simp only [aerase, List.filter_cons] at ih ⊢
    have hax : a ≠ x := fun hc => hx hc.symm
    by_cases h : p.1 = a
    · simpa [h, alookup, hax] using ih
    · by_cases hpx : p.1 = x
      · simp [h, alookup, hpx, hx]
      · simpa [h, alookup, hpx] using ih

theorem alookup_ainsert_self {α β : Type} [DecidableEq α] (l : List (α × β)) (a : α) (b : β) :
    alookup (ainsert l a b) a = some b := by
  simp [ainsert, alookup]

theorem alookup_ainsert_ne {α β : Type} [DecidableEq α] (l : List (α × β)) (a x : α) (b : β)
    (hx : x ≠ a) : alookup (ainsert l a b) x = alookup l x := by
  have : a ≠ x := fun hc => hx hc.symm
  simp only [ainsert, alookup, if_neg this]
  exact alookup_aerase_ne l a x hx

/-! ### FdTable (src/fd_table.rs)

`fds: HashMap<i32, FileMonitorSharedPtr>` is modelled by an association
list from fd to a monitor identifier; two fds bound to clones of the same
`Rc` (reference equality in Rust) carry the same `MonitorId`.
`SYSCALLBUF_FDS_DISABLED_SIZE` is defined in the preload interface outside
these sources, so every operation takes it as the parameter `SIZE`. -/

abbrev Fd := Int
abbrev MonitorId := Nat

structure FdTable where
  fds : List (Fd × MonitorId)
  fd_count_beyond_limit : Nat
  deriving DecidableEq

def is_monitoring (t : FdTable) (fd : Fd) : Bool :=
  (alookup t.fds fd).isSome

def get_monitor (t : FdTable) (fd : Fd) : Option MonitorId :=
  alookup t.fds fd

def count_beyond_limit (t : FdTable) : Nat :=
  t.fd_count_beyond_limit

/-- Embeds `FdTable::add_monitor` (fd_table.rs:39-55).  The `ed_assert`
precondition `!is_monitoring(fd)` is a debug assertion; the embedding keeps
the release-build behaviour, which simply overwrites the binding. -/
def add_monitor (SIZE : Int) (t : FdTable) (fd : Fd) (monitor : MonitorId) : FdTable :=
  let beyond :=
    if SIZE ≤ fd ∧ alookup t.fds fd = none then t.fd_count_beyond_limit + 1
    else t.fd_count_beyond_limit
  { fds := ainsert t.fds fd monitor, fd_count_beyond_limit := beyond }

/-- Embeds `FdTable::did_dup` (fd_table.rs:106-119).  `self.fds[&from].clone()`
clones the `Rc`, i.e. shares the monitor object: the same `MonitorId` is
bound to `to`.  (`getD 0` is unreachable: it is guarded by the `isSome`.) -/
def did_dup (SIZE : Int) (t : FdTable) (fromFd toFd : Fd) : FdTable :=
  if (alookup t.fds fromFd).isSome then
    let beyond :=
      if SIZE ≤ toFd ∧ alookup t.fds toFd = none then t.fd_count_beyond_limit + 1
      else t.fd_count_beyond_limit
    { fds := ainsert t.fds toFd ((alookup t.fds fromFd).getD 0),
      fd_count_beyond_limit := beyond }
  else
    let beyond :=
      if SIZE ≤ toFd ∧ (alookup t.fds toFd).isSome then t.fd_count_beyond_limit - 1
      else t.fd_count_beyond_limit
    { fds := aerase t.fds toFd, fd_count_beyond_limit := beyond }

/-- Embeds `FdTable::did_close` (fd_table.rs:120-127). -/
def did_close (SIZE : Int) (t : FdTable) (fd : Fd) : FdTable :=
  let beyond :=
    if SIZE ≤ fd ∧ (alookup t.fds fd).isSome then t.fd_count_beyond_limit - 1
    else t.fd_count_beyond_limit
  { fds := aerase t.fds fd, fd_count_beyond_limit := beyond }

/-- Embeds `FdTable::clone_into_task` (fd_table.rs:130-139): shallow copy of `fds`
and the same `fd_count_beyond_limit` (the new table's task set is not part
of this state). -/
def clone_into_task (t : FdTable) : FdTable :=
  { fds := t.fds, fd_count_beyond_limit := t.fd_count_beyond_limit }

/-- Embeds `FdTable::create` (fd_table.rs:141-150): fresh empty table. -/
def createTable : FdTable :=
  { fds := [], fd_count_beyond_limit := 0 }

/-- The mutations of a table named in the spec.  `closeAfterExec` covers
both `fds_to_close_after_exec` (recording side: the list is the set of fds
whose `/proc` entry vanished) and `close_after_exec` (replay side: the
recorded list); both just run `did_close` over the list. -/
inductive FdOp where
  | add (fd : Fd) (monitor : MonitorId)
  | dup (fromFd toFd : Fd)
  | close (fd : Fd)
  | closeAfterExec (fds : List Fd)
  | cloneIntoTask

def applyOp (SIZE : Int) (t : FdTable) : FdOp → FdTable
  | .add fd m => add_monitor SIZE t fd m
  | .dup fromFd toFd => did_dup SIZE t fromFd toFd
  | .close fd => did_close SIZE t fd
  | .closeAfterExec fds => fds.foldl (did_close SIZE) t
  | .cloneIntoTask => clone_into_task t

def applyOps (SIZE : Int) (ops : List FdOp) (t : FdTable) : FdTable :=
  ops.foldl (applyOp SIZE) t

/-- The documented meaning of `fd_count_beyond_limit` (fd_table.rs:25):
the number of keys of `fds` that are `≥ SYSCALLBUF_FDS_DISABLED_SIZE`. -/
def beyondSpec (SIZE : Int) (fds : List (Fd × MonitorId)) : Nat :=
  (fds.filter (fun p => decide (SIZE ≤ p.1))).length

def KeysNodup (fds : List (Fd × MonitorId)) : Prop :=
  (fds.map Prod.fst).Nodup

def TableInv (SIZE : Int) (t : FdTable) : Prop :=
  KeysNodup t.fds ∧ t.fd_count_beyond_limit = beyondSpec SIZE t.fds

theorem aerase_of_not_mem (fds : List (Fd × MonitorId)) (fd : Fd)
    (h : alookup fds fd = none) : aerase fds fd = fds := by
  induction fds with
  | nil => rfl
  | cons p rest ih =>
    simp only [alookup] at h
    by_cases hp : p.1 = fd
    · simp [hp] at h
    · simp only [hp, if_false] at h
      have hrest := ih h
      simp only [aerase, List.filter_cons] at hrest ⊢
      rw [if_pos (by simpa using hp), hrest]

theorem keysNodup_aerase (fds : List (Fd × MonitorId)) (fd : Fd) (h : KeysNodup fds) :
    KeysNodup (aerase fds fd) := by
  have hsub : List.Sublist (aerase fds fd) fds := List.filter_sublist fds
  exact List.Nodup.sublist (hsub.map Prod.fst) h

theorem not_mem_keys_aerase (fds : List (Fd × MonitorId)) (fd : Fd) :
    fd ∉ (aerase fds fd).map Prod.fst := by
  intro hmem
  rcases List.mem_map.mp hmem with ⟨p, hp, hfst⟩
  rcases List.mem_filter.mp hp with ⟨_, hdec⟩
  rw [hfst] at hdec
  simp at hdec

theorem keysNodup_ainsert (fds : List (Fd × MonitorId)) (fd : Fd) (m : MonitorId)
    (h : KeysNodup fds) : KeysNodup (ainsert fds fd m) := by
  simp only [KeysNodup, ainsert, List.map_cons]
  exact List.Nodup.cons (not_mem_keys_aerase fds fd) (keysNodup_aerase fds fd h)

theorem alookup_none_of_not_mem_keys (fds : List (Fd × MonitorId)) (fd : Fd)
    (h : fd ∉ fds.map Prod.fst) : alookup fds fd = none := by
  induction fds with
  | nil => rfl
  | cons p rest ih =>
    simp only [List.map_cons, List.mem_cons, not_or] at h
    have hp : p.1 ≠ fd := fun hc => h.1 hc.symm
    simp only [alookup, hp, if_false]
    exact ih h.2

theorem alookup_isSome_of_mem_keys (fds : List (Fd × MonitorId)) (fd : Fd)
    (h : fd ∈ fds.map Prod.fst) : (alookup fds fd).isSome = true := by
  induction fds with
  | nil => simp at h
  | cons p rest ih =>
    simp only [List.map_cons, List.mem_cons] at h
    by_cases hp : p.1 = fd
    · simp [alookup, hp]
    · simp only [alookup, hp, if_false]
      exact ih (h.resolve_left fun hc => hp hc.symm)

theorem mem_of_alookup_eq_some {α β : Type} [DecidableEq α] (l : List (α × β)) (a : α) (b : β)
    (h : alookup l a = some b) : (a, b) ∈ l := by
  induction l with
  | nil => simp [alookup] at h
  | cons p rest ih =>
    simp only [alookup] at h
    by_cases hp : p.1 = a
    · subst hp
      rw [if_pos rfl] at h
      simp only [Option.some.injEq] at h
      subst h
      simp
    · simp only [hp, if_false] at h
      exact List.mem_cons_of_mem p (ih h)

theorem if_some_le_beyondSpec (SIZE : Int) (fds : List (Fd × MonitorId)) (fd : Fd) :
    (if SIZE ≤ fd ∧ (alookup fds fd).isSome then 1 else 0) ≤ beyondSpec SIZE fds := by
  by_cases hc : SIZE ≤ fd ∧ (alookup fds fd).isSome
  · simp only [hc, if_true]
    rcases hc with ⟨hsz, hsome⟩
    rcases Option.isSome_iff_exists.mp hsome with ⟨m, hm⟩
    have hmem : (fd, m) ∈ fds.filter (fun p => decide (SIZE ≤ p.1)) :=
      List.mem_filter.mpr ⟨mem_of_alookup_eq_some fds fd m hm, by simpa using hsz⟩
    exact List.length_pos_of_mem hmem
  · simp [hc]

theorem beyondSpec_aerase (SIZE : Int) (fds : List (Fd × MonitorId)) (fd : Fd)
    (hnd : KeysNodup fds) :
    beyondSpec SIZE (aerase fds fd) =
      beyondSpec SIZE fds -
        (if SIZE ≤ fd ∧ (alookup fds fd).isSome then 1 else 0) := by
  induction fds with
  | nil => simp [beyondSpec, aerase]
  | cons p rest ih =>
    have hnd' : KeysNodup rest := (List.nodup_cons.mp hnd).2
    have hnm : p.1 ∉ rest.map Prod.fst := (List.nodup_cons.mp hnd).1
    by_cases hp : p.1 = fd
    · have hrest : alookup rest fd = none := by
        rw [← hp]; exact alookup_none_of_not_mem_keys rest p.1 hnm
      have herase : aerase rest fd = rest := aerase_of_not_mem rest fd hrest
      have hlift : (aerase (p :: rest) fd) = rest := by
        have : aerase (p :: rest) fd = aerase rest fd := by
          simp [aerase, List.filter_cons, hp]
        rw [this, herase]
      rw [hlift]
      have hlook : alookup (p :: rest) fd = some p.2 := by
        simp [alookup, hp]
      rw [hlook]
      by_cases hs : SIZE ≤ fd
      · simp [beyondSpec, List.filter_cons, hp, hs]
      · simp [beyondSpec, List.filter_cons, hp, hs]
    · have hlift : aerase (p :: rest) fd = p :: aerase rest fd := by
        simp [aerase, List.filter_cons, hp]
      have hlook : alookup (p :: rest) fd = alookup rest fd := by
        simp [alookup, hp]
      rw [hlift, hlook]
      have hle := if_some_le_beyondSpec SIZE rest fd
      have harr1 : beyondSpec SIZE (p :: aerase rest fd) =
          beyondSpec SIZE (aerase rest fd) + (if SIZE ≤ p.1 then 1 else 0) := by
        by_cases hs : SIZE ≤ p.1 <;> simp [beyondSpec, List.filter_cons, hs]
      have harr2 : beyondSpec SIZE (p :: rest) =
          beyondSpec SIZE rest + (if SIZE ≤ p.1 then 1 else 0) := by
        by_cases hs : SIZE ≤ p.1 <;> simp [beyondSpec, List.filter_cons, hs]
      rw [harr1, harr2, ih hnd']
      by_cases hc : SIZE ≤ fd ∧ (alookup rest fd).isSome
      · simp only [hc, if_true] at hle ⊢
        omega
      · simp [hc]

theorem count_ainsert_ok (SIZE : Int) (fds : List (Fd × MonitorId)) (fd : Fd) (m : MonitorId)
    (hnd : KeysNodup fds) :
    (if SIZE ≤ fd ∧ alookup fds fd = none then beyondSpec SIZE fds + 1
      else beyondSpec SIZE fds) = beyondSpec SIZE (ainsert fds fd m) := by
  have hle := if_some_le_beyondSpec SIZE fds fd
  have hins : beyondSpec SIZE (ainsert fds fd m) =
      beyondSpec SIZE (aerase fds fd) + (if SIZE ≤ fd then 1 else 0) := by
    by_cases hs : SIZE ≤ fd <;> simp [beyondSpec, ainsert, List.filter_cons, hs]
  rw [hins, beyondSpec_aerase SIZE fds fd hnd]
  rcases ho : alookup fds fd with _ | m0
  · by_cases hs : SIZE ≤ fd <;> simp [ho, hs]
  · rw [ho] at hle
    by_cases hs : SIZE ≤ fd
    · simp only [hs, Option.isSome_some, true_and, if_true] at hle
      simp [ho, hs]
      omega
    · simp [ho, hs]

theorem count_aerase_ok (SIZE : Int) (fds : List (Fd × MonitorId)) (fd : Fd)
    (hnd : KeysNodup fds) :
    (if SIZE ≤ fd ∧ (alookup fds fd).isSome then beyondSpec SIZE fds - 1
      else beyondSpec SIZE fds) = beyondSpec SIZE (aerase fds fd) := by
  rw [beyondSpec_aerase SIZE fds fd hnd]
  by_cases hc : SIZE ≤ fd ∧ (alookup fds fd).isSome <;> simp [hc]

theorem tableInv_add_monitor (SIZE : Int) (t : FdTable) (fd : Fd) (m : MonitorId)
    (h : TableInv SIZE t) : TableInv SIZE (add_monitor SIZE t fd m) := by
  obtain ⟨hnd, hb⟩ := h
  refine ⟨keysNodup_ainsert _ _ _ hnd, ?_⟩
  show (if SIZE ≤ fd ∧ alookup t.fds fd = none then t.fd_count_beyond_limit + 1
      else t.fd_count_beyond_limit) = beyondSpec SIZE (ainsert t.fds fd m)
  rw [hb]
  exact count_ainsert_ok SIZE t.fds fd m hnd

theorem tableInv_did_close (SIZE : Int) (t : FdTable) (fd : Fd)
    (h : TableInv SIZE t) : TableInv SIZE (did_close SIZE t fd) := by
  obtain ⟨hnd, hb⟩ := h
  refine ⟨keysNodup_aerase _ _ hnd, ?_⟩
  show (if SIZE ≤ fd ∧ (alookup t.fds fd).isSome then t.fd_count_beyond_limit - 1
      else t.fd_count_beyond_limit) = beyondSpec SIZE (aerase t.fds fd)
  rw [hb]
  exact count_aerase_ok SIZE t.fds fd hnd

theorem tableInv_did_dup (SIZE : Int) (t : FdTable) (fromFd toFd : Fd)
    (h : TableInv SIZE t) : TableInv SIZE (did_dup SIZE t fromFd toFd) := by
  obtain ⟨hnd, hb⟩ := h
  unfold did_dup
  by_cases hf : (alookup t.fds fromFd).isSome
  · rw [if_pos hf]
    refine ⟨keysNodup_ainsert _ _ _ hnd, ?_⟩
    show (if SIZE ≤ toFd ∧ alookup t.fds toFd = none then t.fd_count_beyond_limit + 1
        else t.fd_count_beyond_limit) =
      beyondSpec SIZE (ainsert t.fds toFd ((alookup t.fds fromFd).getD 0))
    rw [hb]
    exact count_ainsert_ok SIZE t.fds toFd _ hnd
  · rw [if_neg hf]
    refine ⟨keysNodup_aerase _ _ hnd, ?_⟩
    show (if SIZE ≤ toFd ∧ (alookup t.fds toFd).isSome then t.fd_count_beyond_limit - 1
        else t.fd_count_beyond_limit) = beyondSpec SIZE (aerase t.fds toFd)
    rw [hb]
    exact count_aerase_ok SIZE t.fds toFd hnd

theorem tableInv_close_list (SIZE : Int) (l : List Fd) (t : FdTable)
    (h : TableInv SIZE t) : TableInv SIZE (l.foldl (did_close SIZE) t) := by
  induction l generalizing t with
  | nil => exact h
  | cons fd rest ih => exact ih _ (tableInv_did_close SIZE t fd h)

theorem tableInv_applyOp (SIZE : Int) (t : FdTable) (op : FdOp)
    (h : TableInv SIZE t) : TableInv SIZE (applyOp SIZE t op) := by
  cases op with
  | add fd m => exact tableInv_add_monitor SIZE t fd m h
  | dup fromFd toFd => exact tableInv_did_dup SIZE t fromFd toFd h
  | close fd => exact tableInv_did_close SIZE t fd h
  | closeAfterExec fds => exact tableInv_close_list SIZE fds t h
  | cloneIntoTask => exact h

theorem tableInv_applyOps (SIZE : Int) (ops : List FdOp) (t : FdTable)
    (h : TableInv SIZE t) : TableInv SIZE (applyOps SIZE ops t) := by
  induction ops generalizing t with
  | nil => exact h
  | cons op rest ih => exact ih _ (tableInv_applyOp SIZE t op h)

/-- Claim C4: for every FdTable and every sequence of mutations (add_monitor,
did_dup, did_close, the bulk closures of fds_to_close_after_exec /
close_after_exec, and tables produced by create and clone_into_task), after
each mutation the counter `fd_count_beyond_limit` equals the number of keys
in `fds` that are `≥ SYSCALLBUF_FDS_DISABLED_SIZE`. -/
theorem c4_beyond_limit_invariant (SIZE : Int) (ops : List FdOp) :
    (applyOps SIZE ops createTable).fd_count_beyond_limit
      = beyondSpec SIZE (applyOps SIZE ops createTable).fds
    ∧ KeysNodup (applyOps SIZE ops createTable).fds := by
  have h : TableInv SIZE (applyOps SIZE ops createTable) :=
    tableInv_applyOps SIZE ops createTable ⟨List.nodup_nil, rfl⟩
  exact ⟨h.2, h.1⟩

/-- Claim C8: `did_dup(from, to)` with `from` monitored binds `to` to the
very same monitor object (the `Rc` is cloned, so `get_monitor(to)` and
`get_monitor(from)` return the same object, modelled as the same
`MonitorId`); with `from` unmonitored it removes any monitor from `to`. -/
theorem c8_did_dup_shares_monitor (SIZE : Int) (t : FdTable) (fromFd toFd : Fd) :
    (is_monitoring t fromFd = true →
      get_monitor (did_dup SIZE t fromFd toFd) toFd = get_monitor t fromFd
      ∧ get_monitor (did_dup SIZE t fromFd toFd) fromFd = get_monitor t fromFd)
    ∧ (is_monitoring t fromFd = false →
      is_monitoring (did_dup SIZE t fromFd toFd) toFd = false) := by
  constructor
  · intro hmon
    have hf : (alookup t.fds fromFd).isSome := hmon
    rcases ho : alookup t.fds fromFd with _ | m0
    · rw [ho] at hf; simp at hf
    have hfds : (did_dup SIZE t fromFd toFd).fds = ainsert t.fds toFd m0 := by
      unfold did_dup
      rw [if_pos hf, ho]
      rfl
    constructor
    · show alookup (did_dup SIZE t fromFd toFd).fds toFd = alookup t.fds fromFd
      rw [hfds, alookup_ainsert_self, ho]
    · show alookup (did_dup SIZE t fromFd toFd).fds fromFd = alookup t.fds fromFd
      rw [hfds]
      by_cases he : fromFd = toFd
      · rw [he, alookup_ainsert_self, ← he, ho]
      · rw [alookup_ainsert_ne t.fds toFd fromFd m0 he]
  · intro hmon
    have hf : ¬(alookup t.fds fromFd).isSome = true := by
      simpa [is_monitoring] using hmon
    have hfds : (did_dup SIZE t fromFd toFd).fds = aerase t.fds toFd := by
      unfold did_dup
      rw [if_neg hf]
    show (alookup (did_dup SIZE t fromFd toFd).fds toFd).isSome = false
    rw [hfds, alookup_aerase_self]
    rfl

def c8table : FdTable := add_monitor 16 createTable 3 5

/- Witness for C8 at a concrete table: monitor 5 on fd 3, `did_dup(3, 7)`
shares it; on a table with fd 9 unmonitored, `did_dup(9, 11)` leaves 11
unmonitored. -/
theorem c8_did_dup_shares_monitor_witness :
    (get_monitor (did_dup 16 c8table 3 7) 7 = get_monitor c8table 3
      ∧ get_monitor (did_dup 16 c8table 3 7) 3 = get_monitor c8table 3)
    ∧ is_monitoring (did_dup 16 c8table 9 11) 11 = false :=
  ⟨(c8_did_dup_shares_monitor 16 c8table 3 7).1 (by decide),
    (c8_did_dup_shares_monitor 16 c8table 9 11).2 (by decide)⟩

/-! ### The disabled-fds bitmap refresh (fd_table.rs:240-296)

A world holds every task (its session's recording flag, its address-space
id `vm`, whether `preload_globals` is mapped, and the id of the FdTable it
points at) and every FdTable.  `update_syscallbuf_fds_disabled` iterates
over the tasks sharing the mutated table; a successful body emits a write
event `(vm, byte index, value)` for the tracee write + local recording. -/

structure C1Task where
  recording : Bool
  vm : Nat
  preload : Bool
  table : Nat
  deriving DecidableEq

structure C1World where
  tasks : List C1Task
  tables : List FdTable
  deriving DecidableEq

def tableOf (w : C1World) (i : Nat) : FdTable :=
  w.tables.getD i createTable

/-- Embeds `is_fd_monitored_in_any_task` (fd_table.rs:286-296): OR over the tasks
of the address space `vm`. -/
def is_fd_monitored_in_any_task (SIZE : Int) (w : C1World) (vm : Nat) (fd : Fd) : Bool :=
  (w.tasks.filter (fun t => t.vm == vm)).any fun t =>
    is_monitoring (tableOf w t.table) fd
      || (decide (SIZE - 1 ≤ fd) && decide (0 < count_beyond_limit (tableOf w t.table)))

/-- Loop body of `update_syscallbuf_fds_disabled` (fd_table.rs:247-277),
iterating the table's task set.  Mirrors the source exactly: a
non-recording task makes the whole function `return`; the guard
`if !vms_updated.contains(&vm_addr) { continue; }` skips the body whenever
the address space is NOT yet in `vms_updated` (the set starts empty and is
only inserted into after this guard); the `mut fd` clamp persists across
iterations. -/
def update_go (SIZE : Int) (w : C1World) :
    List C1Task → Fd → List Nat → List (Nat × Fd × Nat) → List (Nat × Fd × Nat)
  | [], _, _, acc => acc
  | t :: rest, fd, vmsUpdated, acc =>
    if ¬t.recording then acc
    else if t.vm ∉ vmsUpdated then update_go SIZE w rest fd vmsUpdated acc
    else
      let vmsUpdated2 := t.vm :: vmsUpdated
      if t.preload then
        let fd2 := if SIZE ≤ fd then SIZE - 1 else fd
        let disable : Nat := if is_fd_monitored_in_any_task SIZE w t.vm fd2 then 1 else 0
        update_go SIZE w rest fd2 vmsUpdated2 (acc ++ [(t.vm, fd2, disable)])
      else update_go SIZE w rest fd vmsUpdated2 acc

/-- Embeds `FdTable::update_syscallbuf_fds_disabled` (fd_table.rs:240-278) on the
table `tableId`, after a mutation affecting `fd`.  Returns the write
events performed on tracee address spaces. -/
def update_syscallbuf_fds_disabled (SIZE : Int) (w : C1World) (tableId : Nat) (fd : Fd) :
    List (Nat × Fd × Nat) :=
  update_go SIZE w (w.tasks.filter (fun t => t.table == tableId)) fd [] []

theorem update_go_empty_set (SIZE : Int) (w : C1World) (ts : List C1Task) (fd : Fd)
    (acc : List (Nat × Fd × Nat)) : update_go SIZE w ts fd [] acc = acc := by
  induction ts generalizing fd with
  | nil => rfl
  | cons t rest ih =>
    unfold update_go
    have hnm : t.vm ∉ ([] : List Nat) := List.not_mem_nil t.vm
    by_cases hr : t.recording = true
    · simp only [hr, not_true_eq_false, if_false, hnm, not_false_eq_true, if_true]
      exact ih fd
    · simp [hr]

/-- Claim C1 (code evaluation): a recording-session bitmap refresh never
writes anything.  `vms_updated` starts empty and the loop `continue`s
whenever the address space is absent from it, so the insertion and the
write are unreachable: for every world, table and fd the function performs
zero writes, where the spec requires one recomputed byte per associated
address space. -/
theorem c1_update_writes_nothing (SIZE : Int) (w : C1World) (tableId : Nat) (fd : Fd) :
    update_syscallbuf_fds_disabled SIZE w tableId fd = [] :=
  update_go_empty_set SIZE w _ fd []

/-! ### EmuFs registry (src/emu_fs.rs)

Handles: each `EmuFile` ever created gets a fresh id (`nextId` counter).
`files` is ghost state recording every file's identity and size; `live`
is the set of ids that still have at least one strong `Rc` handle;
`registry` models `EmuFs::files`, the weak map from recorded
`(device, inode)` to the registered file. -/

structure FileInfo where
  device : Nat
  inode : Nat
  size : Nat
  orig_path : String
  deriving DecidableEq

structure KernelMapping where
  device : Nat
  inode : Nat
  file_offset_bytes : Nat
  size : Nat
  fsname : String
  deriving DecidableEq

structure EmuFs where
  files : List (Nat × FileInfo)
  live : List Nat
  registry : List ((Nat × Nat) × Nat)
  nextId : Nat
  deriving DecidableEq

def emptyFs : EmuFs :=
  { files := [], live := [], registry := [], nextId := 0 }

/-- Embeds `EmuFs::find` (emu_fs.rs:329-336): registry lookup (the source then
upgrades the weak handle, asserted to always succeed). -/
def EmuFs.find (s : EmuFs) (device inode : Nat) : Option Nat :=
  alookup s.registry (device, inode)

/-- Embeds `EmuFs::get_or_create` (emu_fs.rs:301-325).  `min_file_size` is
`recorded_km.file_offset_bytes() + recorded_km.size()`.  If the FileId is
registered, the weak handle is upgraded (assumed to succeed, as in the
source) and `EmuFile::update` runs, i.e. `ensure_size(min_file_size)`;
otherwise a fresh `EmuFile` of size `min_file_size` is created and a weak
handle to it registered. -/
def get_or_create (s : EmuFs) (km : KernelMapping) : EmuFs × Nat :=
  let file_id := (km.device, km.inode)
  let min_file_size := km.file_offset_bytes + km.size
  match alookup s.registry file_id with
  | some h =>
    let files2 :=
      match alookup s.files h with
      | some info => ainsert s.files h { info with size := max info.size min_file_size }
      | none => s.files
    ({ s with files := files2 }, h)
  | none =>
    let h := s.nextId
    let info : FileInfo :=
      { device := km.device, inode := km.inode, size := min_file_size,
        orig_path := km.fsname }
    ({ files := ainsert s.files h info, live := h :: s.live,
       registry := ainsert s.registry file_id h, nextId := h + 1 }, h)

/-- Embeds `EmuFs::clone_file` (emu_fs.rs:292-297): physically copies the file
(`EmuFile::clone_file` builds a fresh EmuFile with the same identity, size
and path) and re-registers the FileId of the existing file to point at the
clone. -/
def clone_file_fs (s : EmuFs) (h : Nat) : EmuFs × Nat :=
  match alookup s.files h with
  | none => (s, h)
  | some info =>
    let h2 := s.nextId
    ({ files := ainsert s.files h2 info, live := h2 :: s.live,
       registry := ainsert s.registry (info.device, info.inode) h2, nextId := h2 + 1 }, h2)

/-- Embeds `impl Drop for EmuFile` (emu_fs.rs:248-257) at the moment the last
strong handle to file `h` drops: `EmuFs::destroyed_file` (emu_fs.rs:352-354)
removes the registry entry keyed by the file's own `(device, inode)` —
whether or not that entry points at `h`. -/
def drop_handle (s : EmuFs) (h : Nat) : EmuFs :=
  match alookup s.files h with
  | none => s
  | some info =>
    { s with live := s.live.erase h,
             registry := aerase s.registry (info.device, info.inode) }

/-- States reachable by the EmuFs lifecycle; `clone` and `drop` require a
strong handle to the file, which only holders of live handles can do. -/
inductive EmuReachable : EmuFs → Prop
  | init : EmuReachable emptyFs
  | getOrCreate (s : EmuFs) (km : KernelMapping) :
      EmuReachable s → EmuReachable (get_or_create s km).1
  | clone (s : EmuFs) (h : Nat) :
      EmuReachable s → h ∈ s.live → EmuReachable (clone_file_fs s h).1
  | drop (s : EmuFs) (h : Nat) :
      EmuReachable s → h ∈ s.live → EmuReachable (drop_handle s h)

/-- The inductive invariant: live handles are below the allocation counter,
and every registry entry points at a live file whose recorded identity is
the entry's key. -/
def GoodFs (s : EmuFs) : Prop :=
  (∀ h, h ∈ s.live → h < s.nextId)
  ∧ (∀ d i h, alookup s.registry (d, i) = some h →
      h ∈ s.live ∧ ∃ info, alookup s.files h = some info
        ∧ info.device = d ∧ info.inode = i)

theorem goodFs_empty : GoodFs emptyFs := by
  constructor
  · intro h hmem
    simp [emptyFs] at hmem
  · intro d i h hmem
    simp [emptyFs, alookup] at hmem

theorem get_or_create_none_eq (s : EmuFs) (km : KernelMapping)
    (hr : alookup s.registry (km.device, km.inode) = none) :
    get_or_create s km =
      ({ files := ainsert s.files s.nextId
           { device := km.device, inode := km.inode,
             size := km.file_offset_bytes + km.size, orig_path := km.fsname },
         live := s.nextId :: s.live,
         registry := ainsert s.registry (km.device, km.inode) s.nextId,
         nextId := s.nextId + 1 }, s.nextId) := by
  unfold get_or_create
  simp only [hr]

theorem get_or_create_some_eq (s : EmuFs) (km : KernelMapping) (h0 : Nat) (info0 : FileInfo)
    (hr : alookup s.registry (km.device, km.inode) = some h0)
    (hf : alookup s.files h0 = some info0) :
    get_or_create s km =
      ({ s with files :=
           ainsert s.files h0 ({ info0 with
             size := max info0.size (km.file_offset_bytes + km.size) }) }, h0) := by
  unfold get_or_create
  simp only [hr, hf]

theorem get_or_create_some_nofile_eq (s : EmuFs) (km : KernelMapping) (h0 : Nat)
    (hr : alookup s.registry (km.device, km.inode) = some h0)
    (hf : alookup s.files h0 = none) :
    get_or_create s km = (s, h0) := by
  unfold get_or_create
  simp only [hr, hf]

theorem clone_file_fs_some_eq (s : EmuFs) (h : Nat) (info : FileInfo)
    (hf : alookup s.files h = some info) :
    clone_file_fs s h =
      ({ files := ainsert s.files s.nextId info, live := s.nextId :: s.live,
         registry := ainsert s.registry (info.device, info.inode) s.nextId,
         nextId := s.nextId + 1 }, s.nextId) := by
  unfold clone_file_fs
  rw [hf]

theorem clone_file_fs_none_eq (s : EmuFs) (h : Nat)
    (hf : alookup s.files h = none) : clone_file_fs s h = (s, h) := by
  unfold clone_file_fs
  rw [hf]

theorem drop_handle_some_eq (s : EmuFs) (h : Nat) (info : FileInfo)
    (hf : alookup s.files h = some info) :
    drop_handle s h =
      { s with live := s.live.erase h,
               registry := aerase s.registry (info.device, info.inode) } := by
  unfold drop_handle
  rw [hf]

theorem drop_handle_none_eq (s : EmuFs) (h : Nat)
    (hf : alookup s.files h = none) : drop_handle s h = s := by
  unfold drop_handle
  rw [hf]

theorem goodFs_get_or_create (s : EmuFs) (km : KernelMapping) (hg : GoodFs s) :
    GoodFs (get_or_create s km).1 := by
  obtain ⟨hfresh, hreg⟩ := hg
  rcases hr : alookup s.registry (km.device, km.inode) with _ | h0
  · rw [get_or_create_none_eq s km hr]
    constructor
    · intro h hmem
      rcases List.mem_cons.mp hmem with he | hm
      · exact he ▸ Nat.lt_succ_self _
      · exact Nat.lt_succ_of_lt (hfresh h hm)
    · intro d i h hl
      by_cases hk : ((d, i) : Nat × Nat) = (km.device, km.inode)
      · rw [hk, alookup_ainsert_self] at hl
        injection hl with hh
        subst hh
        refine ⟨List.mem_cons_self _ _, _, alookup_ainsert_self _ _ _, ?_, ?_⟩
        · exact (congrArg Prod.fst hk).symm
        · exact (congrArg Prod.snd hk).symm
      · rw [alookup_ainsert_ne s.registry (km.device, km.inode) (d, i) s.nextId hk] at hl
        obtain ⟨hlive, info, hinfo, hd, hi⟩ := hreg d i h hl
        refine ⟨List.mem_cons_of_mem _ hlive, info, ?_, hd, hi⟩
        have hne : h ≠ s.nextId := Nat.ne_of_lt (hfresh h hlive)
        rw [alookup_ainsert_ne s.files s.nextId h _ hne]
        exact hinfo
  · rcases hf : alookup s.files h0 with _ | info0
    · rw [get_or_create_some_nofile_eq s km h0 hr hf]
      exact ⟨hfresh, hreg⟩
    · rw [get_or_create_some_eq s km h0 info0 hr hf]
      constructor
      · exact hfresh
      · intro d i h hl
        obtain ⟨hlive, info, hinfo, hd, hi⟩ := hreg d i h hl
        refine ⟨hlive, ?_⟩
        by_cases he : h = h0
        · subst he
          have hei : info0 = info := by
            have := hf.symm.trans hinfo
            injection this
          refine ⟨_, alookup_ainsert_self _ _ _, ?_, ?_⟩
          · show info0.device = d
            rw [hei]; exact hd
          · show info0.inode = i
            rw [hei]; exact hi
        · refine ⟨info, ?_, hd, hi⟩
          rw [alookup_ainsert_ne s.files h0 h _ he]
          exact hinfo

theorem goodFs_clone (s : EmuFs) (h : Nat) (hg : GoodFs s) (_hl : h ∈ s.live) :
    GoodFs (clone_file_fs s h).1 := by
  obtain ⟨hfresh, hreg⟩ := hg
  rcases hf : alookup s.files h with _ | info
  · rw [clone_file_fs_none_eq s h hf]
    exact ⟨hfresh, hreg⟩
  · rw [clone_file_fs_some_eq s h info hf]
    constructor
    · intro h2 hmem
      rcases List.mem_cons.mp hmem with he | hm
      · exact he ▸ Nat.lt_succ_self _
      · exact Nat.lt_succ_of_lt (hfresh h2 hm)
    · intro d i h2 hlk
      by_cases hk : ((d, i) : Nat × Nat) = (info.device, info.inode)
      · rw [hk, alookup_ainsert_self] at hlk
        injection hlk with hh
        subst hh
        refine ⟨List.mem_cons_self _ _, info, alookup_ainsert_self _ _ _, ?_, ?_⟩
        · exact (congrArg Prod.fst hk).symm
        · exact (congrArg Prod.snd hk).symm
      · rw [alookup_ainsert_ne s.registry (info.device, info.inode) (d, i) s.nextId hk] at hlk
        obtain ⟨hlive, info2, hinfo2, hd, hi⟩ := hreg d i h2 hlk
        refine ⟨List.mem_cons_of_mem _ hlive, info2, ?_, hd, hi⟩
        have hne : h2 ≠ s.nextId := Nat.ne_of_lt (hfresh h2 hlive)
        rw [alookup_ainsert_ne s.files s.nextId h2 _ hne]
        exact hinfo2

theorem goodFs_drop (s : EmuFs) (h : Nat) (hg : GoodFs s) :
    GoodFs (drop_handle s h) := by
  obtain ⟨hfresh, hreg⟩ := hg
  rcases hf : alookup s.files h with _ | info
  · rw [drop_handle_none_eq s h hf]
    exact ⟨hfresh, hreg⟩
  · rw [drop_handle_some_eq s h info hf]
    constructor
    · intro h2 hmem
      exact hfresh h2 (List.mem_of_mem_erase hmem)
    · intro d i h2 hlk
      by_cases hk : ((d, i) : Nat × Nat) = (info.device, info.inode)
      · rw [hk, alookup_aerase_self] at hlk
        cases hlk
      · rw [alookup_aerase_ne s.registry (info.device, info.inode) (d, i) hk] at hlk
        obtain ⟨hlive, info2, hinfo2, hd, hi⟩ := hreg d i h2 hlk
        have hne : h2 ≠ h := by
          intro he
          subst he
          have hei : info2 = info := by
            have := hinfo2.symm.trans hf
            injection this
          apply hk
          rw [← hd, ← hi, hei]
        refine ⟨(List.mem_erase_of_ne hne).mpr hlive, info2, hinfo2, hd, hi⟩

theorem goodFs_reachable (s : EmuFs) (h : EmuReachable s) : GoodFs s := by
  induction h with
  | init => exact goodFs_empty
  | getOrCreate s km _ ih => exact goodFs_get_or_create s km ih
  | clone s hdl _ hl ih => exact goodFs_clone s hdl ih hl
  | drop s hdl _ _ ih => exact goodFs_drop s hdl ih

def kmA : KernelMapping :=
  { device := 8, inode := 42, file_offset_bytes := 0, size := 4096, fsname := "/tmp/a" }

def kmA2 : KernelMapping :=
  { device := 8, inode := 42, file_offset_bytes := 4096, size := 4096, fsname := "/tmp/a" }

def sA : EmuFs := (get_or_create emptyFs kmA).1

def sB : EmuFs := (clone_file_fs sA 0).1

def sC : EmuFs := drop_handle sB 0

/-- Claim C2 counterexample: create the EmuFile for (8, 42) (handle 0),
clone it (handle 1, which takes over the registry entry), then drop the
last strong handle to the original.  The original's destructor removes the
registry entry keyed (8, 42) — the entry pointing at the still-live clone —
so a strong handle with identity (8, 42) is live while
`find(8, 42)` returns empty, refuting the claimed iff. -/
theorem c2_counterexample :
    EmuReachable sC
    ∧ 1 ∈ sC.live
    ∧ alookup sC.files 1 =
        some { device := 8, inode := 42, size := 4096, orig_path := "/tmp/a" }
    ∧ EmuFs.find sC 8 42 = none := by
  refine ⟨?_, by decide, by decide, by decide⟩
  exact EmuReachable.drop sB 0
    (EmuReachable.clone sA 0
      (EmuReachable.getOrCreate emptyFs kmA EmuReachable.init) (by decide))
    (by decide)

/-- Claim C2 (amended): for every reachable EmuFs state, a present registry
entry always points at a live EmuFile of exactly that identity (so the weak
handle upgrade succeeds); and after the last strong handle to a file drops,
`find` on that file's identity returns empty.  The converse direction of
the original claim fails (see the counterexample): dropping an original
that was superseded by `clone_file` removes the clone's entry, so a live
strong handle does not guarantee a present entry. -/
theorem c2_registry_weak_handle_validity (s : EmuFs) (hs : EmuReachable s) :
    (∀ d i h, EmuFs.find s d i = some h →
      h ∈ s.live ∧ ∃ info, alookup s.files h = some info
        ∧ info.device = d ∧ info.inode = i)
    ∧ (∀ h info, alookup s.files h = some info →
      EmuFs.find (drop_handle s h) info.device info.inode = none) := by
  constructor
  · intro d i h hf
    exact (goodFs_reachable s hs).2 d i h hf
  · intro h info hf
    show alookup (drop_handle s h).registry (info.device, info.inode) = none
    rw [drop_handle_some_eq s h info hf]
    exact alookup_aerase_self _ _

/- Witness for C2 (amended) at the concrete one-file state `sA`. -/
theorem c2_registry_weak_handle_validity_witness :
    (0 ∈ sA.live ∧ ∃ info, alookup sA.files 0 = some info
      ∧ info.device = 8 ∧ info.inode = 42)
    ∧ EmuFs.find (drop_handle sA 0) 8 42 = none :=
  ⟨(c2_registry_weak_handle_validity sA
      (EmuReachable.getOrCreate emptyFs kmA EmuReachable.init)).1 8 42 0 (by decide),
    (c2_registry_weak_handle_validity sA
      (EmuReachable.getOrCreate emptyFs kmA EmuReachable.init)).2 0
      { device := 8, inode := 42, size := 4096, orig_path := "/tmp/a" } (by decide)⟩

/-- Claim C3: `get_or_create` computes `fid = (device, inode)` and
`min_size = file_offset + length`; on a registered fid it updates the
registered EmuFile (its size becomes `max old min_size ≥ min_size`) and
returns the same handle with the registry unchanged; otherwise it creates
a new EmuFile of size `min_size`, registers it under fid, and returns the
new (strong, live) handle. -/
theorem c3_get_or_create (s : EmuFs) (km : KernelMapping) :
    (∀ h0 info0, alookup s.registry (km.device, km.inode) = some h0 →
      alookup s.files h0 = some info0 →
      (get_or_create s km).2 = h0
      ∧ (get_or_create s km).1.registry = s.registry
      ∧ alookup (get_or_create s km).1.files h0
          = some { info0 with size := max info0.size (km.file_offset_bytes + km.size) }
      ∧ km.file_offset_bytes + km.size ≤ max info0.size (km.file_offset_bytes + km.size))
    ∧ (alookup s.registry (km.device, km.inode) = none →
      (get_or_create s km).2 = s.nextId
      ∧ alookup (get_or_create s km).1.files s.nextId
          = some { device := km.device, inode := km.inode,
                   size := km.file_offset_bytes + km.size, orig_path := km.fsname }
      ∧ alookup (get_or_create s km).1.registry (km.device, km.inode) = some s.nextId
      ∧ s.nextId ∈ (get_or_create s km).1.live) := by
  constructor
  · intro h0 info0 hr hf
    rw [get_or_create_some_eq s km h0 info0 hr hf]
    exact ⟨rfl, rfl, alookup_ainsert_self _ _ _, le_max_right _ _⟩
  · intro hr
    rw [get_or_create_none_eq s km hr]
    exact ⟨rfl, alookup_ainsert_self _ _ _, alookup_ainsert_self _ _ _,
      List.mem_cons_self _ _⟩

/- Witness for C3: extending the (8, 42) file from 4096 to 8192 bytes via
the registered path, and the fresh-creation path from the empty registry. -/
theorem c3_get_or_create_witness :
    ((get_or_create sA kmA2).2 = 0
      ∧ (get_or_create sA kmA2).1.registry = sA.registry
      ∧ alookup (get_or_create sA kmA2).1.files 0
          = some { device := 8, inode := 42, size := 8192, orig_path := "/tmp/a" }
      ∧ (8192 : Nat) ≤ 8192)
    ∧ ((get_or_create emptyFs kmA).2 = 0
      ∧ alookup (get_or_create emptyFs kmA).1.files 0
          = some { device := 8, inode := 42, size := 4096, orig_path := "/tmp/a" }
      ∧ alookup (get_or_create emptyFs kmA).1.registry (8, 42) = some 0
      ∧ 0 ∈ (get_or_create emptyFs kmA).1.live) :=
  ⟨(c3_get_or_create sA kmA2).1 0
      { device := 8, inode := 42, size := 4096, orig_path := "/tmp/a" }
      (by decide) (by decide),
    (c3_get_or_create emptyFs kmA).2 (by decide)⟩

/-! ### EmuFile backing bytes (src/emu_fs.rs, byte level)

The backing object's bytes are a `List Nat`; `size_` always equals the
backing length (`create` resizes the fresh backing to the file size and
`ensure_size` keeps them in step; `ftruncate` extension zero-fills).
`pread64` / `pwrite64` return values are supplied by oracle lists: each
call consumes one entry; an exhausted oracle, or an entry larger than the
requested byte count (impossible for the kernel), leaves the run
undefined (`none`), as does a `fatal!`. -/

abbrev Bytes := List Nat

structure EmuFile where
  orig_path : String
  device : Nat
  inode : Nat
  content : Bytes
  deriving DecidableEq

def EmuFile.size (f : EmuFile) : Nat := f.content.length

/-- Embeds `EmuFile::BUF_LEN` (emu_fs.rs:68): `65536 / size_of::<u64>()`. -/
def BUF_LEN : Nat := 65536 / 8

/-- Embeds `EmuFile::ensure_size` (emu_fs.rs:128-133): grow-only resize of the
backing via `resize_shmem_segment` (a fatal-on-error `ftruncate`,
util.rs:300-305). -/
def ensure_size (f : EmuFile) (n : Nat) : EmuFile :=
  if f.size < n then
    { f with content := f.content ++ List.replicate (n - f.content.length) 0 }
  else f

def ensure_seq (f : EmuFile) (l : List Nat) : EmuFile :=
  l.foldl ensure_size f

/-- One `pwrite64` of `r` bytes at `offset` during `clone_file`: the read
buffer holds exactly `src[readStart..)`, and `data_ptr` has been advanced
in step with `offset`, so the write copies `src[offset..offset+r)` into
the destination. -/
def copyRange (src : Bytes) (dst : Bytes) (offset : Nat) : Nat → Bytes
  | 0 => dst
  | r + 1 => copyRange src (dst.set offset (src.getD offset 0)) (offset + 1) r

/-- The inner short-write loop of `EmuFile::clone_file` (emu_fs.rs:166-186):
writes `amt` bytes, looping on short writes; `ret <= 0` and
`ret > amount` are `fatal!`. -/
def writeLoop (src : Bytes) : List Int → Bytes → Nat → Nat → Option (List Int × Bytes × Nat)
  | ws, dst, offset, 0 => some (ws, dst, offset)
  | [], _, _, _ + 1 => none
  | r :: ws2, dst, offset, amt + 1 =>
    if r ≤ 0 then none
    else if (amt + 1) < r.toNat then none
    else writeLoop src ws2 (copyRange src dst offset r.toNat) (offset + r.toNat)
      (amt + 1 - r.toNat)

/-- The outer read loop of `EmuFile::clone_file` (emu_fs.rs:149-187).
The second component records the byte count requested from each `pread64`
(`amount = min(size_ - offset, BUF_LEN)`), issued before the result is
seen.  A read result `≤ 0` is `fatal!`; one exceeding the request cannot
come from the kernel and leaves the run undefined. -/
def readLoop (src : Bytes) (size : Nat) :
    List Int → List Int → Bytes → Nat → Option Bytes × List Nat
  | rs, ws, dst, offset =>
    if size ≤ offset then (some dst, [])
    else
      match rs with
      | [] => (none, [])
      | r :: rs2 =>
        let amount := min (size - offset) BUF_LEN
        let rest : Option Bytes × List Nat :=
          if r ≤ 0 then (none, [])
          else if amount < r.toNat then (none, [])
          else
            match writeLoop src ws dst offset r.toNat with
            | none => (none, [])
            | some (ws2, dst2, offset2) => readLoop src size rs2 ws2 dst2 offset2
        (rest.1, amount :: rest.2)

/-- Embeds `EmuFile::clone_file` (emu_fs.rs:137-190): create a fresh EmuFile with
the same `emu_path`, `device`, `inode` and `size_` (its backing resized to
`size_`, hence zero-filled), then copy the backing bytes through the
read/write loops.  Also returns the recorded read-request sizes. -/
def clone_file (f : EmuFile) (rs ws : List Int) : Option EmuFile × List Nat :=
  let res := readLoop f.content f.size rs ws (List.replicate f.size 0) 0
  (res.1.map (fun c =>
    { orig_path := f.orig_path, device := f.device, inode := f.inode, content := c }),
   res.2)

theorem getD_set_self (l : Bytes) (i : Nat) (a : Nat) (h : i < l.length) :
    (l.set i a).getD i 0 = a := by
  induction l generalizing i with
  | nil => simp at h
  | cons x xs ih =>
    cases i with
    | zero => rfl
    | succ j => exact ih j (Nat.lt_of_succ_lt_succ h)

theorem getD_set_ne (l : Bytes) (i j : Nat) (a : Nat) (h : i ≠ j) :
    (l.set i a).getD j 0 = l.getD j 0 := by
  induction l generalizing i j with
  | nil => rfl
  | cons x xs ih =>
    cases i with
    | zero =>
      cases j with
      | zero => exact absurd rfl h
      | succ j2 => rfl
    | succ i2 =>
      cases j with
      | zero => rfl
      | succ j2 => exact ih i2 j2 (fun hc => h (by rw [hc]))

theorem copyRange_length (src : Bytes) (dst : Bytes) (offset r : Nat) :
    (copyRange src dst offset r).length = dst.length := by
  induction r generalizing dst offset with
  | zero => rfl
  | succ r2 ih =>
    show (copyRange src (dst.set offset (src.getD offset 0)) (offset + 1) r2).length = _
    rw [ih, List.length_set]

theorem copyRange_getD (src dst : Bytes) (offset r i : Nat) (hlen : i < dst.length) :
    (copyRange src dst offset r).getD i 0 =
      if offset ≤ i ∧ i < offset + r then src.getD i 0 else dst.getD i 0 := by
  induction r generalizing dst offset with
  | zero =>
    rw [if_neg (by omega)]
    rfl
  | succ r2 ih =>
    show (copyRange src (dst.set offset (src.getD offset 0)) (offset + 1) r2).getD i 0 = _
    rw [ih (dst.set offset (src.getD offset 0)) (offset + 1)
      (by rw [List.length_set]; exact hlen)]
    by_cases hio : i = offset
    · subst hio
      rw [if_neg (by omega), if_pos (by omega)]
      exact getD_set_self dst i _ hlen
    · rw [getD_set_ne dst offset i _ (fun hc => hio hc.symm)]
      by_cases hc : offset ≤ i ∧ i < offset + (r2 + 1)
      · rw [if_pos (by omega), if_pos hc]
      · rw [if_neg (by omega), if_neg hc]

theorem writeLoop_spec (src : Bytes) (ws : List Int) :
    ∀ dst offset amt ws2 dst2 offset2,
    writeLoop src ws dst offset amt = some (ws2, dst2, offset2) →
    offset + amt ≤ dst.length →
    dst2.length = dst.length ∧ offset2 = offset + amt ∧
    (∀ i, i < dst.length →
      dst2.getD i 0 = if offset ≤ i ∧ i < offset + amt then src.getD i 0
        else dst.getD i 0) := by
  induction ws with
  | nil =>
    intro dst offset amt ws2 dst2 offset2 h hle
    cases amt with
    | zero =>
      simp only [writeLoop, Option.some.injEq, Prod.mk.injEq] at h
      obtain ⟨-, h2, h3⟩ := h
      subst h2; subst h3
      refine ⟨rfl, by omega, fun i hi => ?_⟩
      rw [if_neg (by omega)]
    | succ a => simp [writeLoop] at h
  | cons r ws' ih =>
    intro dst offset amt ws2 dst2 offset2 h hle
    cases amt with
    | zero =>
      simp only [writeLoop, Option.some.injEq, Prod.mk.injEq] at h
      obtain ⟨-, h2, h3⟩ := h
      subst h2; subst h3
      refine ⟨rfl, by omega, fun i hi => ?_⟩
      rw [if_neg (by omega)]
    | succ a =>
      simp only [writeLoop] at h
      by_cases hr : r ≤ 0
      · rw [if_pos hr] at h
        cases h
      · rw [if_neg hr] at h
        by_cases hbig : (a + 1) < r.toNat
        · rw [if_pos hbig] at h
          cases h
        · rw [if_neg hbig] at h
          have hrt : 1 ≤ r.toNat := by omega
          have hlen2 : (copyRange src dst offset r.toNat).length = dst.length :=
            copyRange_length src dst offset r.toNat
          have hle2 : (offset + r.toNat) + (a + 1 - r.toNat) ≤
              (copyRange src dst offset r.toNat).length := by
            rw [hlen2]; omega
          obtain ⟨hl2, ho2, hagree⟩ := ih _ _ _ _ _ _ h hle2
          refine ⟨by rw [hl2, hlen2], by omega, fun i hi => ?_⟩
          have hi2 : i < (copyRange src dst offset r.toNat).length := by
            rw [hlen2]; exact hi
          rw [hagree i hi2, copyRange_getD src dst offset r.toNat i hi]
          by_cases hc : offset ≤ i ∧ i < offset + (a + 1)
          · rw [if_pos hc]
            by_cases hc2 : offset + r.toNat ≤ i ∧
                i < offset + r.toNat + (a + 1 - r.toNat)
            · rw [if_pos hc2]
            · rw [if_neg hc2, if_pos (by omega)]
          · rw [if_neg hc, if_neg (by omega), if_neg (by omega)]

theorem readLoop_spec (src : Bytes) (size : Nat) (rs : List Int) :
    ∀ ws dst offset dstF,
    (readLoop src size rs ws dst offset).1 = some dstF →
    dst.length = size → offset ≤ size →
    (∀ i, i < offset → dst.getD i 0 = src.getD i 0) →
    dstF.length = size ∧ ∀ i, i < size → dstF.getD i 0 = src.getD i 0 := by
  induction rs with
  | nil =>
    intro ws dst offset dstF h hlen hoff hpre
    simp only [readLoop] at h
    by_cases hexit : size ≤ offset
    · rw [if_pos hexit] at h
      simp only [Option.some.injEq] at h
      subst h
      exact ⟨hlen, fun i hi => hpre i (by omega)⟩
    · rw [if_neg hexit] at h
      cases h
  | cons r rs2 ih =>
    intro ws dst offset dstF h hlen hoff hpre
    simp only [readLoop] at h
    by_cases hexit : size ≤ offset
    · rw [if_pos hexit] at h
      simp only [Option.some.injEq] at h
      subst h
      exact ⟨hlen, fun i hi => hpre i (by omega)⟩
    · rw [if_neg hexit] at h
      simp only at h
      by_cases hr : r ≤ 0
      · rw [if_pos hr] at h
        cases h
      · rw [if_neg hr] at h
        by_cases hbig : min (size - offset) BUF_LEN < r.toNat
        · rw [if_pos hbig] at h
          cases h
        · rw [if_neg hbig] at h
          rcases hw : writeLoop src ws dst offset r.toNat with _ | ⟨ws2, dst2, offset2⟩
          · rw [hw] at h
            cases h
          · rw [hw] at h
            have hrle : r.toNat ≤ size - offset := by
              have := Nat.min_le_left (size - offset) BUF_LEN
              omega
            have hle : offset + r.toNat ≤ dst.length := by omega
            obtain ⟨hl2, ho2, hagree⟩ := writeLoop_spec src ws dst offset r.toNat
              ws2 dst2 offset2 hw hle
            refine ih ws2 dst2 offset2 dstF h (by rw [hl2, hlen]) (by omega) ?_
            intro i hi
            have hi2 : i < dst.length := by omega
            rw [hagree i hi2]
            by_cases hc : offset ≤ i ∧ i < offset + r.toNat
            · rw [if_pos hc]
            · rw [if_neg hc]
              exact hpre i (by omega)

/-- Claim C5: a successful `clone_file` yields a file with the same size,
device, inode and orig_path, whose backing bytes agree with the source's
at every offset below the size — for any short-read / short-write
behaviour of the kernel that lets the copy complete. -/
theorem c5_clone_copies_everything (f : EmuFile) (rs ws : List Int) (g : EmuFile)
    (h : (clone_file f rs ws).1 = some g) :
    g.size = f.size ∧ g.device = f.device ∧ g.inode = f.inode
    ∧ g.orig_path = f.orig_path
    ∧ ∀ o, o < f.size → g.content.getD o 0 = f.content.getD o 0 := by
  have h2 : ((readLoop f.content f.size rs ws (List.replicate f.size 0) 0).1.map
      (fun c => ({ orig_path := f.orig_path, device := f.device, inode := f.inode,
                   content := c } : EmuFile))) = some g := h
  rcases hm : (readLoop f.content f.size rs ws (List.replicate f.size 0) 0).1 with _ | c
  · rw [hm] at h2
    cases h2
  · rw [hm, Option.map_some'] at h2
    injection h2 with h2
    obtain ⟨hlen, hagree⟩ := readLoop_spec f.content f.size rs ws
      (List.replicate f.size 0) 0 c hm (by simp) (Nat.zero_le _)
      (fun i hi => absurd hi (Nat.not_lt_zero i))
    subst h2
    exact ⟨hlen, rfl, rfl, rfl, hagree⟩

def c5file : EmuFile :=
  { orig_path := "/x", device := 1, inode := 2, content := [5, 6, 7] }

/- Witness for C5: a 3-byte file copied in one full read and one full
write. -/
def c5clone : EmuFile :=
  { orig_path := "/x", device := 1, inode := 2, content := [5, 6, 7] }

theorem c5_clone_copies_everything_witness :
    c5clone.size = c5file.size
    ∧ c5clone.device = c5file.device
    ∧ c5clone.inode = c5file.inode
    ∧ c5clone.orig_path = c5file.orig_path
    ∧ ∀ o, o < c5file.size → c5clone.content.getD o 0 = c5file.content.getD o 0 :=
  c5_clone_copies_everything c5file [3] [3] c5clone (by decide)

theorem readLoop_first_request (src : Bytes) (size : Nat) (r : Int) (rs2 ws : List Int)
    (dst : Bytes) (offset : Nat) (h : offset < size) :
    (readLoop src size (r :: rs2) ws dst offset).2.head? =
      some (min (size - offset) BUF_LEN) := by
  simp only [readLoop, if_neg (not_le.mpr h)]
  rfl

def c6file : EmuFile :=
  { orig_path := "/tmp/big", device := 8, inode := 43, content := List.replicate 65536 0 }

/-- Claim C6 counterexample: copying is NOT performed in blocks of 65536
bytes.  For a 65536-byte file the very first `pread64` requests
`min(size - offset, BUF_LEN) = min(65536, 8192) = 8192` bytes, because
`BUF_LEN = 65536 / size_of::<u64>() = 8192` is an element count used as the
byte cap, where 65536-byte blocks would request `min(65536, 65536) = 65536`. -/
theorem clone_file_first_request (f : EmuFile) (r : Int) (rs2 ws : List Int)
    (h : 0 < f.size) :
    (clone_file f (r :: rs2) ws).2.head? = some (min f.size BUF_LEN) := by
  show (readLoop f.content f.size (r :: rs2) ws (List.replicate f.size 0) 0).2.head? = _
  rw [readLoop_first_request f.content f.size r rs2 ws (List.replicate f.size 0) 0 h,
    Nat.sub_zero]

theorem c6_counterexample :
    (clone_file c6file [1] [1]).2.head? = some 8192
    ∧ (8192 : Nat) ≠ min 65536 65536 := by
  constructor
  · have hsz : c6file.size = 65536 := by
      show (List.replicate 65536 (0 : Nat)).length = 65536
      rw [List.length_replicate]
    rw [clone_file_first_request c6file 1 [] [1] (by rw [hsz]; omega), hsz]
    decide
  · decide

/-- Claim C6 (amended): `EmuFile::clone_file` copies in blocks of at most
`BUF_LEN = 65536 / size_of::<u64>() = 8192` bytes (each `pread64` request is
`min(remaining, 8192)`, positive while bytes remain), using positional
read/write; short reads and short writes are looped over (any positive
return values that complete the copy yield a full copy, per the C5
theorem); and a read returning 0 (or any `ret ≤ 0`) before `size` bytes
have been copied aborts the process. -/
theorem c6_block_size_and_fatal_read :
    (∀ src size rs ws dst offset q, q ∈ (readLoop src size rs ws dst offset).2 →
      0 < q ∧ q ≤ BUF_LEN)
    ∧ (∀ src size rs2 ws dst offset, offset < size →
      (readLoop src size ((0 : Int) :: rs2) ws dst offset).1 = none) := by
  constructor
  · intro src size rs
    induction rs with
    | nil =>
      intro ws dst offset q hq
      by_cases hexit : size ≤ offset <;>
        simp [readLoop, hexit] at hq
    | cons r rs2 ih =>
      intro ws dst offset q hq
      by_cases hexit : size ≤ offset
      · simp [readLoop, hexit] at hq
      · simp only [readLoop, if_neg hexit] at hq
        rcases List.mem_cons.mp hq with hq1 | hq2
        · subst hq1
          constructor
          · have : 0 < size - offset := by omega
            have : 0 < BUF_LEN := by decide
            omega
          · exact Nat.min_le_right _ _
        · by_cases hr : (r : Int) ≤ 0
          · rw [if_pos hr] at hq2
            simp at hq2
          · rw [if_neg hr] at hq2
            by_cases hbig : min (size - offset) BUF_LEN < r.toNat
            · rw [if_pos hbig] at hq2
              simp at hq2
            · rw [if_neg hbig] at hq2
              rcases hw : writeLoop src ws dst offset r.toNat with _ | ⟨ws2, dst2, offset2⟩
              · rw [hw] at hq2
                simp at hq2
              · rw [hw] at hq2
                exact ih ws2 dst2 offset2 q hq2
  · intro src size rs2 ws dst offset h
    simp only [readLoop, if_neg (not_le.mpr h)]
    rw [if_pos (by omega : (0 : Int) ≤ 0)]

/- Witness for C6 (amended): every request of a 2-byte copy is positive and
at most 8192; a first read returning 0 on a 1-byte file is fatal. -/
theorem c6_block_size_and_fatal_read_witness :
    (0 < 2 ∧ 2 ≤ BUF_LEN)
    ∧ (readLoop [9] 1 [(0 : Int)] [] [0] 0).1 = none :=
  ⟨c6_block_size_and_fatal_read.1 [9, 9] 2 [2] [2] [0, 0] 0 2 (by decide),
    c6_block_size_and_fatal_read.2 [9] 1 [] [] [0] 0 (by decide)⟩

theorem ensure_size_size (f : EmuFile) (n : Nat) :
    (ensure_size f n).size = max f.size n := by
  unfold ensure_size
  by_cases h : f.size < n
  · rw [if_pos h]
    show (f.content ++ List.replicate (n - f.content.length) 0).length = max f.size n
    rw [List.length_append, List.length_replicate]
    have : f.size = f.content.length := rfl
    omega
  · rw [if_neg h]
    have : f.size = f.content.length := rfl
    omega

theorem ensure_size_of_le (f : EmuFile) (n : Nat) (h : n ≤ f.size) :
    ensure_size f n = f := by
  unfold ensure_size
  rw [if_neg (not_lt.mpr h)]

/-- Claim C7: over any sequence of `ensure_size` calls the observed size is
the running maximum of the initial size and all requested sizes; the size
never decreases; the backing is resized only when the request strictly
exceeds the current size (otherwise the file is unchanged); and
`ensure_size` is idempotent. -/
theorem c7_ensure_size_monotone (f : EmuFile) (l : List Nat) (n : Nat) :
    (ensure_seq f l).size = l.foldl max f.size
    ∧ f.size ≤ (ensure_size f n).size
    ∧ (n ≤ f.size → ensure_size f n = f)
    ∧ ensure_size (ensure_size f n) n = ensure_size f n := by
  refine ⟨?_, ?_, ensure_size_of_le f n, ?_⟩
  · show (l.foldl ensure_size f).size = l.foldl max f.size
    induction l generalizing f with
    | nil => rfl
    | cons s rest ih =>
      show (rest.foldl ensure_size (ensure_size f s)).size = rest.foldl max (max f.size s)
      rw [ih (ensure_size f s), ensure_size_size]
  · rw [ensure_size_size]
    exact Nat.le_max_left _ _
  · apply ensure_size_of_le
    rw [ensure_size_size]
    exact Nat.le_max_right _ _

def c7file : EmuFile :=
  { orig_path := "/y", device := 1, inode := 3, content := [0, 0, 0] }

/- Witness for C7 at a 3-byte file: sizes max(3, 5, 2, 9) = 9; shrink
request 2 is a no-op; repeated grow to 5 is idempotent. -/
theorem c7_ensure_size_monotone_witness :
    (ensure_seq c7file [5, 2, 9]).size = 9
    ∧ c7file.size ≤ (ensure_size c7file 5).size
    ∧ ensure_size c7file 2 = c7file
    ∧ ensure_size (ensure_size c7file 5) 5 = ensure_size c7file 5 :=
  ⟨(c7_ensure_size_monotone c7file [5, 2, 9] 5).1,
    (c7_ensure_size_monotone c7file [] 5).2.1,
    (c7_ensure_size_monotone c7file [] 2).2.2.1 (by decide),
    (c7_ensure_size_monotone c7file [] 5).2.2.2⟩

/-! ### util.rs: is_tmp_file and pwrite_all_fallible

Paths are byte lists (the source compares `path.as_bytes()`).  The
environment variable value is `Option (List Nat)` (`none` = unset, i.e.
`env::var` returned `Err`); the `statfs` result is the `fs_magic`
parameter. -/

def TMPFS_MAGIC : Int := 0x01021994

def tmpSlash : List Nat := [47, 116, 109, 112, 47]

def bytesStartWith : List Nat → List Nat → Bool
  | _, [] => true
  | [], _ :: _ => false
  | a :: as2, b :: bs => (a == b) && bytesStartWith as2 bs

/-- Embeds `is_tmp_file` (util.rs:622-633): if `RD_TRUST_TEMP_FILES` is unset or
empty, return `true` immediately (without `statfs`); otherwise consult
`statfs` and report tmpfs iff the magic is `TMPFS_MAGIC` or the path
starts with `/tmp/`. -/
def is_tmp_file (trust : Option (List Nat)) (fs_magic : Int) (path : List Nat) : Bool :=
  match trust with
  | none => true
  | some v =>
    if v = [] then true
    else (TMPFS_MAGIC == fs_magic) || bytesStartWith path tmpSlash

/-- The `RD_TRUST_TEMP_FILES` contract as the spec states it (spec §6 and
claim C9): if set and non-empty, treat anything under `$TMPDIR` or `/tmp/`
as tmpfs without calling `statfs`; when unset (or empty), tmpfs status is
determined by `statfs` and `TMPFS_MAGIC` (or the `/tmp/` prefix). -/
def is_tmp_file_contract (trust : Option (List Nat)) (tmpdir : Option (List Nat))
    (fs_magic : Int) (path : List Nat) : Bool :=
  match trust with
  | some v =>
    if v ≠ [] then
      (match tmpdir with
        | some d => bytesStartWith path d
        | none => false) || bytesStartWith path tmpSlash
    else (TMPFS_MAGIC == fs_magic) || bytesStartWith path tmpSlash
  | none => (TMPFS_MAGIC == fs_magic) || bytesStartWith path tmpSlash

/-- Bytes of "/home/user/data", a path on an ext4 filesystem. -/
def homePath : List Nat :=
  [47, 104, 111, 109, 101, 47, 117, 115, 101, 114, 47, 100, 97, 116, 97]

/-- Claim C9 (code evaluation at the failing input): the env-var guard is
inverted.  With `RD_TRUST_TEMP_FILES` unset, the code reports every path —
here `/home/user/data` on ext4 (magic 0xEF53) — as a tmp file without
calling `statfs`, where the documented contract answers `false` via the
`statfs` check; and with the variable set non-empty (`"1"`), the code
consults `statfs` (answering `true` for a tmpfs-backed file outside
`$TMPDIR` and `/tmp/`), where the contract trusts only the path prefix and
answers `false`. -/
theorem c9_trust_guard_inverted :
    is_tmp_file none 0xEF53 homePath = true
    ∧ is_tmp_file_contract none none 0xEF53 homePath = false
    ∧ is_tmp_file (some [49]) TMPFS_MAGIC homePath = true
    ∧ is_tmp_file_contract (some [49]) none TMPFS_MAGIC homePath = false := by
  decide

/-- Loop of `pwrite_all_fallible` (util.rs:412-436).  `rets` is the oracle
of successive `pwrite64` return values, `written` the bytes written so
far, `cur` the remaining byte count (`cur_size`).  `none` models an
exhausted oracle or a return exceeding the remaining count — impossible
for the kernel, and the `&buf[ret..]` reslice would panic. -/
def pwriteGo : List Int → Nat → Nat → Option (Except Unit Nat)
  | _, written, 0 => some (Except.ok written)
  | [], _, _ + 1 => none
  | r :: rs, written, cur + 1 =>
    if 0 < written ∧ r ≤ 0 then some (Except.ok written)
    else if written = 0 ∧ r = 0 then some (Except.ok written)
    else if r < 0 then some (Except.error ())
    else if (cur + 1) < r.toNat then none
    else pwriteGo rs (written + r.toNat) (cur + 1 - r.toNat)

/-- Embeds `pwrite_all_fallible(fd, buf, offset)` with `len = buf.len()`. -/
def pwrite_all_fallible (rets : List Int) (len : Nat) : Option (Except Unit Nat) :=
  pwriteGo rets 0 len

theorem pwriteGo_ok_le (rets : List Int) :
    ∀ written cur n, pwriteGo rets written cur = some (Except.ok n) →
      n ≤ written + cur := by
  induction rets with
  | nil =>
    intro written cur n h
    cases cur with
    | zero =>
      simp only [pwriteGo, Option.some.injEq, Except.ok.injEq] at h
      omega
    | succ c => simp [pwriteGo] at h
  | cons r rs ih =>
    intro written cur n h
    cases cur with
    | zero =>
      simp only [pwriteGo, Option.some.injEq, Except.ok.injEq] at h
      omega
    | succ c =>
      simp only [pwriteGo] at h
      by_cases h1 : 0 < written ∧ r ≤ 0
      · rw [if_pos h1] at h
        simp only [Option.some.injEq, Except.ok.injEq] at h
        omega
      · rw [if_neg h1] at h
        by_cases h2 : written = 0 ∧ r = 0
        · rw [if_pos h2] at h
          simp only [Option.some.injEq, Except.ok.injEq] at h
          omega
        · rw [if_neg h2] at h
          by_cases h3 : r < 0
          · rw [if_pos h3] at h
            cases h
          · rw [if_neg h3] at h
            by_cases h4 : (c + 1) < r.toNat
            · rw [if_pos h4] at h
              cases h
            · rw [if_neg h4] at h
              have := ih _ _ _ h
              omega

theorem pwriteGo_error_first (rets : List Int) :
    ∀ written cur, pwriteGo rets written cur = some (Except.error ()) →
      written = 0 ∧ 0 < cur ∧ ∃ r rs, rets = r :: rs ∧ r < 0 := by
  induction rets with
  | nil =>
    intro written cur h
    cases cur with
    | zero => simp [pwriteGo] at h
    | succ c => simp [pwriteGo] at h
  | cons r rs ih =>
    intro written cur h
    cases cur with
    | zero => simp [pwriteGo] at h
    | succ c =>
      simp only [pwriteGo] at h
      by_cases h1 : 0 < written ∧ r ≤ 0
      · rw [if_pos h1] at h
        cases h
      · rw [if_neg h1] at h
        by_cases h2 : written = 0 ∧ r = 0
        · rw [if_pos h2] at h
          cases h
        · rw [if_neg h2] at h
          by_cases h3 : r < 0
          · rw [if_pos h3] at h
            refine ⟨?_, by omega, r, rs, rfl, h3⟩
            by_contra hw
            exact h1 ⟨by omega, by omega⟩
          · rw [if_neg h3] at h
            by_cases h4 : (c + 1) < r.toNat
            · rw [if_pos h4] at h
              cases h
            · rw [if_neg h4] at h
              obtain ⟨hz, -, -⟩ := ih _ _ h
              have hrpos : 0 < r := by
                by_cases hzero : r = 0
                · exfalso
                  subst hzero
                  by_cases hw : written = 0
                  · exact h2 ⟨hw, rfl⟩
                  · exact h1 ⟨by omega, by omega⟩
                · omega
              omega

theorem pwriteGo_ones (cur : Nat) :
    ∀ written, pwriteGo (List.replicate cur 1) written cur =
      some (Except.ok (written + cur)) := by
  induction cur with
  | zero =>
    intro written
    rfl
  | succ c ih =>
    intro written
    show pwriteGo ((1 : Int) :: List.replicate c 1) written (c + 1) = _
    simp only [pwriteGo]
    rw [if_neg (by omega), if_neg (by omega), if_neg (by omega),
      if_neg (by simp)]
    have : (1 : Int).toNat = 1 := rfl
    rw [this]
    have h2 := ih (written + 1)
    have h3 : c + 1 - 1 = c := by omega
    rw [h3, h2]
    congr 2
    omega

theorem pwriteGo_stop_after_progress (r2 : Int) (rs : List Int) (written cur : Nat)
    (hw : 0 < written) (hc : 0 < cur) (h2 : r2 ≤ 0) :
    pwriteGo (r2 :: rs) written cur = some (Except.ok written) := by
  cases cur with
  | zero => omega
  | succ c =>
    simp only [pwriteGo]
    rw [if_pos ⟨hw, h2⟩]

/-- Claim C10: `pwrite_all_fallible` loops on short writes and never
reports more bytes than `buf.len()`; it returns `Err` only when the very
first `pwrite64` fails with a negative result before any byte is written;
a zero result on the first call yields `Ok(0)`; once at least one byte has
been written any subsequent failure or zero result yields `Ok` with the
partial count; and a run of short writes summing to the buffer completes
with `Ok(len)`. -/
theorem c10_pwrite_all_fallible (rets : List Int) (len : Nat) :
    (∀ n, pwrite_all_fallible rets len = some (Except.ok n) → n ≤ len)
    ∧ (pwrite_all_fallible rets len = some (Except.error ()) →
        0 < len ∧ ∃ r rs, rets = r :: rs ∧ r < 0)
    ∧ (∀ rs, rets = (0 : Int) :: rs → 0 < len →
        pwrite_all_fallible rets len = some (Except.ok 0))
    ∧ (∀ r r2 rs, rets = r :: r2 :: rs → 0 < r → r.toNat < len → r2 ≤ 0 →
        pwrite_all_fallible rets len = some (Except.ok r.toNat))
    ∧ (rets = List.replicate len 1 →
        pwrite_all_fallible rets len = some (Except.ok len)) := by
  refine ⟨?_, ?_, ?_, ?_, ?_⟩
  · intro n h
    have := pwriteGo_ok_le rets 0 len n h
    omega
  · intro h
    obtain ⟨-, hpos, hr⟩ := pwriteGo_error_first rets 0 len h
    exact ⟨hpos, hr⟩
  · intro rs hr hlen
    subst hr
    show pwriteGo ((0 : Int) :: rs) 0 len = some (Except.ok 0)
    cases len with
    | zero => omega
    | succ c =>
      simp [pwriteGo]
  · intro r r2 rs hr hrpos hrlen hr2
    subst hr
    show pwriteGo (r :: r2 :: rs) 0 len = some (Except.ok r.toNat)
    cases len with
    | zero => omega
    | succ c =>
      have hstep : pwriteGo (r :: r2 :: rs) 0 (c + 1) =
          pwriteGo (r2 :: rs) (0 + r.toNat) (c + 1 - r.toNat) := by
        simp only [pwriteGo]
        rw [if_neg (by omega), if_neg (by omega), if_neg (by omega),
          if_neg (by omega)]
      rw [hstep,
        pwriteGo_stop_after_progress r2 rs (0 + r.toNat) (c + 1 - r.toNat)
          (by omega) (by omega) hr2]
      simp
  · intro hr
    subst hr
    have h := pwriteGo_ones len 0
    rw [Nat.zero_add] at h
    exact h

/- Witness for C10: a short write of 2 then a failed call reports Ok(2) of
a 5-byte buffer; zero on the first call gives Ok(0); a first-call error
gives Err with a negative first result; four 1-byte writes complete a
4-byte buffer. -/
theorem c10_pwrite_all_fallible_witness :
    (2 : Nat) ≤ 5
    ∧ pwrite_all_fallible [(0 : Int)] 3 = some (Except.ok 0)
    ∧ pwrite_all_fallible [(2 : Int), -5] 5 = some (Except.ok 2)
    ∧ (0 < 2 ∧ ∃ r rs, ([(-1 : Int)] : List Int) = r :: rs ∧ r < 0)
    ∧ pwrite_all_fallible (List.replicate 4 1) 4 = some (Except.ok 4) :=
  ⟨(c10_pwrite_all_fallible [(2 : Int), -5] 5).1 2 (by rfl),
    (c10_pwrite_all_fallible [(0 : Int)] 3).2.2.1 [] rfl (by decide),
    (c10_pwrite_all_fallible [(2 : Int), -5] 5).2.2.2.1 2 (-5) [] rfl (by decide)
      (by decide) (by decide),
    (c10_pwrite_all_fallible [(-1 : Int)] 2).2.1 (by rfl),
    (c10_pwrite_all_fallible (List.replicate 4 1) 4).2.2.2.2 rfl⟩

end Rd
